import Mathlib

/-!
Verification of the pydantic2ts pipeline (`backend/scripts/pydantic2ts.py`).

Python dictionaries are modelled as association lists in insertion order;
`d[k] = v` replaces the first binding in place or appends, `del`/`pop`
removes the binding, matching CPython dict semantics on the unique-key
dictionaries the script manipulates.  Fallible Python code (KeyError,
UnboundLocalError, AttributeError) is modelled with `Option`.
-/

/-- JSON-like values: the shape of the schema dictionaries that
`clean_schema` manipulates.  Objects are association lists in insertion
order, matching Python dicts. -/
inductive JVal where
  | str : String → JVal
  | bool : Bool → JVal
  | num : Int → JVal
  | arr : List JVal → JVal
  | obj : List (String × JVal) → JVal

/-- Python `d.get(k)` (and `k in d`, via `Option.isSome`) on a dict modelled
as an association list. -/
def alookup {α : Type} : List (String × α) → String → Option α
  | [], _ => none
  | (k', v) :: l, k => if k' = k then some v else alookup l k

/-- Python `d[k] = v`: replace the first binding of `k` in place, else
append a new binding at the end. -/
def ainsert {α : Type} : List (String × α) → String → α → List (String × α)
  | [], k, v => [(k, v)]
  | (k', v') :: l, k, v =>
    if k' = k then (k', v) :: l else (k', v') :: ainsert l k v

/-- Python `d.pop(k, None)` / `del d[k]` on unique-key dicts. -/
def aerase {α : Type} : List (String × α) → String → List (String × α)
  | [], _ => []
  | (k', v') :: l, k => if k' = k then aerase l k else (k', v') :: aerase l k

theorem alookup_ainsert_self {α : Type} (l : List (String × α)) (k : String) (v : α) :
    alookup (ainsert l k v) k = some v := by
  induction l with
  | nil => simp [ainsert, alookup]
  | cons a l ih =>
    obtain ⟨k', v'⟩ := a
    by_cases h : k' = k
    · simp [ainsert, alookup, h]
    · simp [ainsert, alookup, h, ih]

theorem alookup_ainsert_ne {α : Type} (l : List (String × α)) (k k' : String) (v : α)
    (h : k' ≠ k) : alookup (ainsert l k' v) k = alookup l k := by
  induction l with
  | nil => simp [ainsert, alookup, h]
  | cons a l ih =>
    obtain ⟨k₀, v₀⟩ := a
    by_cases h0 : k₀ = k'
    · subst h0
      simp [ainsert, alookup, h]
    · by_cases h1 : k₀ = k
      · simp [ainsert, alookup, h0, h1, Ne.symm h]
      · simp [ainsert, alookup, h0, h1, ih]

theorem ainsert_of_alookup {α : Type} (l : List (String × α)) (k : String) (v : α)
    (h : alookup l k = some v) : ainsert l k v = l := by
  induction l with
  | nil => simp [alookup] at h
  | cons a l ih =>
    obtain ⟨k₀, v₀⟩ := a
    by_cases h0 : k₀ = k
    · simp [alookup, h0] at h
      simp [ainsert, h0, h]
    · simp [alookup, h0] at h
      simp [ainsert, h0, ih h]

theorem alookup_aerase_self {α : Type} (l : List (String × α)) (k : String) :
    alookup (aerase l k) k = none := by
  induction l with
  | nil => simp [aerase, alookup]
  | cons a l ih =>
    obtain ⟨k₀, v₀⟩ := a
    by_cases h0 : k₀ = k
    · simp [aerase, h0, ih]
    · simp [aerase, alookup, h0, ih]

theorem alookup_aerase_ne {α : Type} (l : List (String × α)) (k k' : String)
    (h : k' ≠ k) : alookup (aerase l k') k = alookup l k := by
  induction l with
  | nil => simp [aerase]
  | cons a l ih =>
    obtain ⟨k₀, v₀⟩ := a
    by_cases h0 : k₀ = k'
    · subst h0
      simp [aerase, alookup, h, ih]
    · by_cases h1 : k₀ = k
      · simp [aerase, alookup, h0, h1, Ne.symm h]
      · simp [aerase, alookup, h0, h1, ih]

theorem aerase_of_alookup_none {α : Type} (l : List (String × α)) (k : String)
    (h : alookup l k = none) : aerase l k = l := by
  induction l with
  | nil => simp [aerase]
  | cons a l ih =>
    obtain ⟨k₀, v₀⟩ := a
    by_cases h0 : k₀ = k
    · simp [alookup, h0] at h
    · simp [alookup, h0] at h
      simp [aerase, h0, ih h]

/-! ### `clean_schema` (pydantic2ts.py lines 182-203) -/

/-- The per-property cleanup inside `clean_schema`'s loop (lines 194-200):
`prop.pop("title", None)` followed by the tuple workaround
`prop["items"] = prop["prefixItems"]` when that key is present.  Note the
positional key itself is not removed by the code. -/
def cleanProp (p : List (String × JVal)) : List (String × JVal) :=
  match alookup (aerase p "title") "prefixItems" with
  | some v => ainsert (aerase p "title") "items" v
  | none => aerase p "title"

/-- One property value of `schema["properties"]`.  The Python loop calls
`prop.pop` on each value, which raises on a non-dict value; that failure is
modelled as `none`. -/
def cleanPropVal : JVal → Option JVal
  | .obj p => some (.obj (cleanProp p))
  | _ => none

/-- The loop `for prop in schema.get("properties", {}).values()`. -/
def cleanProps : List (String × JVal) → Option (List (String × JVal))
  | [] => some []
  | (k, v) :: l =>
    match cleanPropVal v, cleanProps l with
    | some v', some l' => some ((k, v') :: l')
    | _, _ => none

/-- Lines 202-203: drop the boilerplate description from enumerations
(`if "enum" in schema and schema.get("description") == "An enumeration."`). -/
def enumStep (t : List (String × JVal)) : List (String × JVal) :=
  match alookup t "enum", alookup t "description" with
  | some _, some (.str d) =>
    if d = "An enumeration." then aerase t "description" else t
  | _, _ => t

/-- Lines 192-193: `if is_typeddict: schema["additionalProperties"] = False`. -/
def addlStep (schema : List (String × JVal)) (is_typeddict : Bool) : List (String × JVal) :=
  if is_typeddict then ainsert schema "additionalProperties" (JVal.bool false) else schema

/-- Lines 194-200: clean every value of `schema.get("properties", {})` in
place.  `none` models the exception Python raises when the `properties`
value, or some property value, is not a dict. -/
def propsStep (s1 : List (String × JVal)) : Option (List (String × JVal)) :=
  match alookup s1 "properties" with
  | none => some s1
  | some (.obj ps) => (cleanProps ps).map fun ps' => ainsert s1 "properties" (.obj ps')
  | some _ => none

/-- `clean_schema(schema, is_typeddict)` (lines 182-203), as the composition
of its three steps in source order. -/
def clean_schema (schema : List (String × JVal)) (is_typeddict : Bool) :
    Option (List (String × JVal)) :=
  (propsStep (addlStep schema is_typeddict)).map enumStep

theorem alookup_enumStep_ne (t : List (String × JVal)) (k : String)
    (h : k ≠ "description") : alookup (enumStep t) k = alookup t k := by
  unfold enumStep
  cases he : alookup t "enum" with
  | none => rfl
  | some e =>
    cases hd : alookup t "description" with
    | none => rfl
    | some d =>
      cases d with
      | str d =>
        by_cases hb : d = "An enumeration."
        · simp [hb, alookup_aerase_ne t k "description" (Ne.symm h)]
        · simp [hb]
      | bool b => rfl
      | num n => rfl
      | arr a => rfl
      | obj o => rfl

theorem enumStep_idem (t : List (String × JVal)) : enumStep (enumStep t) = enumStep t := by
  unfold enumStep
  cases he : alookup t "enum" with
  | none => simp [he]
  | some e =>
    cases hd : alookup t "description" with
    | none => simp [he, hd]
    | some d =>
      cases d with
      | str d =>
        by_cases hb : d = "An enumeration."
        · have h1 : alookup (aerase t "description") "enum" = some e := by
            rw [alookup_aerase_ne t "enum" "description" (by decide)]
            exact he
          have h2 : alookup (aerase t "description") "description" = none :=
            alookup_aerase_self t "description"
          simp [hb, h1, h2]
        · simp [hb, he, hd]
      | bool b => simp [he, hd]
      | num n => simp [he, hd]
      | arr a => simp [he, hd]
      | obj o => simp [he, hd]

theorem cleanProp_idem (p : List (String × JVal)) : cleanProp (cleanProp p) = cleanProp p := by
  cases hv : alookup (aerase p "title") "prefixItems" with
  | none =>
    have h : cleanProp p = aerase p "title" := by simp only [cleanProp, hv]
    rw [h]
    simp only [cleanProp]
    rw [aerase_of_alookup_none _ _ (alookup_aerase_self p "title"), hv]
  | some v =>
    have h : cleanProp p = ainsert (aerase p "title") "items" v := by
      simp only [cleanProp, hv]
    rw [h]
    simp only [cleanProp]
    have ht : alookup (ainsert (aerase p "title") "items" v) "title" = none := by
      rw [alookup_ainsert_ne _ _ _ _ (by decide)]
      exact alookup_aerase_self p "title"
    rw [aerase_of_alookup_none _ _ ht]
    have hp : alookup (ainsert (aerase p "title") "items" v) "prefixItems" = some v := by
      rw [alookup_ainsert_ne _ _ _ _ (by decide)]
      exact hv
    rw [hp]
    exact ainsert_of_alookup _ _ _ (alookup_ainsert_self _ _ _)

theorem cleanProps_idem (ps ps' : List (String × JVal)) (h : cleanProps ps = some ps') :
    cleanProps ps' = some ps' := by
  induction ps generalizing ps' with
  | nil =>
    simp [cleanProps] at h
    subst h
    rfl
  | cons a l ih =>
    obtain ⟨k, v⟩ := a
    cases hv : cleanPropVal v with
    | none => simp [cleanProps, hv] at h
    | some v' =>
      cases hl : cleanProps l with
      | none => simp [cleanProps, hv, hl] at h
      | some l' =>
        simp [cleanProps, hv, hl] at h
        subst h
        cases v with
        | obj p =>
          simp [cleanPropVal] at hv
          have hv' : cleanPropVal v' = some v' := by
            rw [← hv]
            simp [cleanPropVal, cleanProp_idem]
          simp [cleanProps, hv', ih l' hl]
        | str s => simp [cleanPropVal] at hv
        | bool b => simp [cleanPropVal] at hv
        | num n => simp [cleanPropVal] at hv
        | arr a => simp [cleanPropVal] at hv

theorem cleanProps_mem (ps ps' : List (String × JVal)) (k : String) (p : List (String × JVal))
    (h : cleanProps ps = some ps') (hm : (k, JVal.obj p) ∈ ps) :
    (k, JVal.obj (cleanProp p)) ∈ ps' := by
  induction ps generalizing ps' with
  | nil => simp at hm
  | cons a l ih =>
    obtain ⟨k₀, v₀⟩ := a
    cases hv : cleanPropVal v₀ with
    | none => simp [cleanProps, hv] at h
    | some v' =>
      cases hl : cleanProps l with
      | none => simp [cleanProps, hv, hl] at h
      | some l' =>
        simp [cleanProps, hv, hl] at h
        subst h
        rcases List.mem_cons.mp hm with hhead | htail
        · have hk : k = k₀ := congrArg Prod.fst hhead
          have hv0 : JVal.obj p = v₀ := congrArg Prod.snd hhead
          rw [← hv0] at hv
          simp only [cleanPropVal, Option.some.injEq] at hv
          subst hv
          rw [hk]
          exact List.mem_cons_self _ _
        · exact List.mem_cons_of_mem _ (ih l' hl htail)

theorem cleanProps_mem_rev (ps ps' : List (String × JVal)) (k : String) (v : JVal)
    (h : cleanProps ps = some ps') (hm : (k, v) ∈ ps') :
    ∃ p, v = JVal.obj (cleanProp p) := by
  induction ps generalizing ps' with
  | nil =>
    simp [cleanProps] at h
    subst h
    simp at hm
  | cons a l ih =>
    obtain ⟨k₀, v₀⟩ := a
    cases hv : cleanPropVal v₀ with
    | none => simp [cleanProps, hv] at h
    | some v' =>
      cases hl : cleanProps l with
      | none => simp [cleanProps, hv, hl] at h
      | some l' =>
        simp [cleanProps, hv, hl] at h
        subst h
        rcases List.mem_cons.mp hm with hhead | htail
        · cases v₀ with
          | obj p =>
            simp [cleanPropVal] at hv
            subst hv
            exact ⟨p, congrArg Prod.snd hhead⟩
          | str s => simp [cleanPropVal] at hv
          | bool b => simp [cleanPropVal] at hv
          | num n => simp [cleanPropVal] at hv
          | arr a => simp [cleanPropVal] at hv
        · exact ih l' hl htail

theorem propsStep_of_none (s1 : List (String × JVal))
    (hp : alookup s1 "properties" = none) : propsStep s1 = some s1 := by
  unfold propsStep
  rw [hp]

theorem propsStep_of_obj (s1 ps : List (String × JVal))
    (hp : alookup s1 "properties" = some (JVal.obj ps)) :
    propsStep s1 = (cleanProps ps).map fun ps' => ainsert s1 "properties" (JVal.obj ps') := by
  unfold propsStep
  rw [hp]

theorem propsStep_eq_some (s1 s2 : List (String × JVal)) (h : propsStep s1 = some s2) :
    (alookup s1 "properties" = none ∧ s2 = s1) ∨
    ∃ ps ps', alookup s1 "properties" = some (JVal.obj ps) ∧ cleanProps ps = some ps' ∧
      s2 = ainsert s1 "properties" (JVal.obj ps') := by
  cases hp : alookup s1 "properties" with
  | none =>
    rw [propsStep_of_none s1 hp] at h
    simp at h
    exact Or.inl ⟨rfl, h.symm⟩
  | some v =>
    cases v with
    | obj ps =>
      rw [propsStep_of_obj s1 ps hp] at h
      cases hc : cleanProps ps with
      | none =>
        rw [hc] at h
        simp at h
      | some ps' =>
        rw [hc] at h
        simp at h
        exact Or.inr ⟨ps, ps', rfl, hc, h.symm⟩
    | str sv =>
      unfold propsStep at h
      rw [hp] at h
      simp at h
    | bool bv =>
      unfold propsStep at h
      rw [hp] at h
      simp at h
    | num nv =>
      unfold propsStep at h
      rw [hp] at h
      simp at h
    | arr av =>
      unfold propsStep at h
      rw [hp] at h
      simp at h

theorem alookup_propsStep_ne (s1 s2 : List (String × JVal)) (k : String)
    (h : propsStep s1 = some s2) (hk : k ≠ "properties") :
    alookup s2 k = alookup s1 k := by
  rcases propsStep_eq_some s1 s2 h with ⟨_, rfl⟩ | ⟨ps, ps', _, _, rfl⟩
  · rfl
  · exact alookup_ainsert_ne _ _ _ _ (Ne.symm hk)

theorem clean_schema_eq_some (s : List (String × JVal)) (b : Bool) (t : List (String × JVal))
    (h : clean_schema s b = some t) :
    ∃ s2, propsStep (addlStep s b) = some s2 ∧ t = enumStep s2 := by
  unfold clean_schema at h
  cases hp : propsStep (addlStep s b) with
  | none =>
    rw [hp] at h
    simp at h
  | some s2 =>
    rw [hp] at h
    simp at h
    exact ⟨s2, rfl, h.symm⟩

/-- C10: `clean_schema` is idempotent: whenever `clean_schema s b` succeeds
with result `t`, applying it again to `t` succeeds and returns `t`
unchanged -- title removal, `additionalProperties` forcing, the
prefixItems-to-items copy, and the boilerplate-description deletion all
stabilise after one application. -/
theorem C10_clean_schema_idempotent (s : List (String × JVal)) (b : Bool)
    (t : List (String × JVal)) (h : clean_schema s b = some t) :
    clean_schema t b = some t := by
  obtain ⟨s2, hps, rfl⟩ := clean_schema_eq_some s b _ h
  have haddl : addlStep (enumStep s2) b = enumStep s2 := by
    cases b with
    | false => rfl
    | true =>
      have h1 : alookup (addlStep s true) "additionalProperties" = some (JVal.bool false) := by
        simp only [addlStep, if_pos]
        exact alookup_ainsert_self _ _ _
      have h2 : alookup (enumStep s2) "additionalProperties" = some (JVal.bool false) := by
        rw [alookup_enumStep_ne _ _ (by decide), alookup_propsStep_ne _ _ _ hps (by decide)]
        exact h1
      simp only [addlStep, if_pos]
      exact ainsert_of_alookup _ _ _ h2
  rcases propsStep_eq_some _ _ hps with ⟨hpnone, rfl⟩ | ⟨ps, ps', hp, hc, rfl⟩
  · have hpt : alookup (enumStep (addlStep s b)) "properties" = none := by
      rw [alookup_enumStep_ne _ _ (by decide)]
      exact hpnone
    unfold clean_schema
    rw [haddl, propsStep_of_none _ hpt]
    simp [enumStep_idem]
  · have hpt : alookup (enumStep (ainsert (addlStep s b) "properties" (JVal.obj ps')))
        "properties" = some (JVal.obj ps') := by
      rw [alookup_enumStep_ne _ _ (by decide)]
      exact alookup_ainsert_self _ _ _
    unfold clean_schema
    rw [haddl, propsStep_of_obj _ _ hpt, cleanProps_idem ps ps' hc]
    simp only [Option.map_some']
    rw [ainsert_of_alookup _ _ _ hpt]
    rw [enumStep_idem]

/-- C10 witness: a concrete run of `clean_schema` on an enumeration schema
with the boilerplate description, then on its own output. -/
theorem C10_witness :
    clean_schema [("enum", JVal.arr []), ("additionalProperties", JVal.bool false)] true
      = some [("enum", JVal.arr []), ("additionalProperties", JVal.bool false)] :=
  C10_clean_schema_idempotent
    [("enum", JVal.arr []), ("description", JVal.str "An enumeration.")] true
    [("enum", JVal.arr []), ("additionalProperties", JVal.bool false)] rfl

/-- C4 counterexample: on a definition with one tuple-typed property,
`clean_schema` sets `items` to the `prefixItems` value but leaves the
`prefixItems` key present, so the property still carries the positional
form, contradicting the claim that it no longer uses it. -/
theorem C4_counterexample :
    clean_schema
        [("properties", JVal.obj
          [("p", JVal.obj [("prefixItems", JVal.arr [JVal.str "a"]), ("title", JVal.str "P")])])]
        false
      = some [("properties", JVal.obj
          [("p", JVal.obj
            [("prefixItems", JVal.arr [JVal.str "a"]), ("items", JVal.arr [JVal.str "a"])])])] ∧
    (alookup
        [("prefixItems", JVal.arr [JVal.str "a"]), ("items", JVal.arr [JVal.str "a"])]
        "prefixItems").isSome = true :=
  ⟨rfl, rfl⟩

/-- C4 (amended): for every declared property whose schema has a
`prefixItems` key, `clean_schema` sets the property's `items` value to the
`prefixItems` value (so the generic items-array representation carries the
positional item type information), but the `prefixItems` key itself remains
present in the cleaned property. -/
theorem C4_amended_items_copied (s t ps p : List (String × JVal)) (b : Bool)
    (k : String) (v : JVal)
    (hc : clean_schema s b = some t)
    (hps : alookup s "properties" = some (JVal.obj ps))
    (hp : (k, JVal.obj p) ∈ ps)
    (hv : alookup p "prefixItems" = some v) :
    ∃ ps', alookup t "properties" = some (JVal.obj ps') ∧
      (k, JVal.obj (cleanProp p)) ∈ ps' ∧
      alookup (cleanProp p) "items" = some v ∧
      alookup (cleanProp p) "prefixItems" = some v := by
  have hv' : alookup (aerase p "title") "prefixItems" = some v := by
    rw [alookup_aerase_ne _ _ _ (by decide)]
    exact hv
  have hcp : cleanProp p = ainsert (aerase p "title") "items" v := by
    simp only [cleanProp, hv']
  obtain ⟨s2, hpsstep, rfl⟩ := clean_schema_eq_some s b _ hc
  have hs1 : alookup (addlStep s b) "properties" = some (JVal.obj ps) := by
    cases b with
    | false => exact hps
    | true =>
      simp only [addlStep, if_pos]
      rw [alookup_ainsert_ne _ _ _ _ (by decide)]
      exact hps
  rcases propsStep_eq_some _ _ hpsstep with ⟨hnone, _⟩ | ⟨ps0, ps', hp0, hcps, rfl⟩
  · rw [hs1] at hnone
    cases hnone
  · rw [hs1] at hp0
    have hps0 : ps = ps0 := by
      injection hp0 with hp0'
      injection hp0'
    subst hps0
    refine ⟨ps', ?_, ?_, ?_, ?_⟩
    · rw [alookup_enumStep_ne _ _ (by decide)]
      exact alookup_ainsert_self _ _ _
    · exact cleanProps_mem _ _ _ _ hcps hp
    · rw [hcp]
      exact alookup_ainsert_self _ _ _
    · rw [hcp]
      rw [alookup_ainsert_ne _ _ _ _ (by decide)]
      exact hv'

/-- C4 witness: the amended theorem applied to a concrete one-property
schema. -/
theorem C4_witness :
    ∃ ps', alookup
        [("properties", JVal.obj
          [("q", JVal.obj [("prefixItems", JVal.num 1), ("items", JVal.num 1)])])]
        "properties" = some (JVal.obj ps') ∧
      ("q", JVal.obj (cleanProp [("prefixItems", JVal.num 1)])) ∈ ps' ∧
      alookup (cleanProp [("prefixItems", JVal.num 1)]) "items" = some (JVal.num 1) ∧
      alookup (cleanProp [("prefixItems", JVal.num 1)]) "prefixItems" = some (JVal.num 1) :=
  C4_amended_items_copied
    [("properties", JVal.obj [("q", JVal.obj [("prefixItems", JVal.num 1)])])]
    [("properties", JVal.obj
      [("q", JVal.obj [("prefixItems", JVal.num 1), ("items", JVal.num 1)])])]
    [("q", JVal.obj [("prefixItems", JVal.num 1)])]
    [("prefixItems", JVal.num 1)]
    false "q" (JVal.num 1) rfl rfl (List.mem_cons_self _ _) rfl

/-! ### `clean_output_file` (pydantic2ts.py lines 147-179) -/

/-- Python `line.rstrip("\r\n")`: remove trailing carriage returns and
newlines. -/
def rstripNL (s : String) : String :=
  String.mk ((s.data.reverse.dropWhile fun c => c == '\r' || c == '\n').reverse)

/-- The aggregate header marker of line 161. -/
def masterHeader : String := "export interface _Master_ \x7b"

def isHeader (l : String) : Bool := rstripNL l == masterHeader

def isBrace (l : String) : Bool := rstripNL l == "\x7d"

/-- The scan of lines 159-165: `start` is overwritten by every header line
seen, `end` is the first closing-brace line once `start` is set, and the
loop breaks there. -/
def findMarkers : List String → Option Nat → Nat → Option Nat × Option Nat
  | [], start, _ => (start, none)
  | l :: ls, start, i =>
    if isHeader l then findMarkers ls (some i) (i + 1)
    else if start.isSome && isBrace l then (start, some i)
    else findMarkers ls start (i + 1)

/-- The six banner lines of lines 167-174, with their line terminators. -/
def bannerCommentLines : List String :=
  ["/* tslint:disable */\n",
   "/* eslint-disable */\n",
   "/**\n",
   "/* This file was automatically generated from pydantic models by running pydantic2ts.\n",
   "/* Do not modify it by hand - just update the pydantic models and then re-run the script\n",
   "*/\n\n"]

/-- `clean_output_file` (lines 147-179) on the list of lines read from the
file.  When both markers are found the file is rewritten to
`new_lines = banner + lines[:start] + lines[end+1:]`.  When either marker is
missing, `new_lines` was never assigned, so `f.writelines(new_lines)` raises
`UnboundLocalError` -- after `open(output_filename, "w")` has already
truncated the file; that error outcome is modelled as `none`. -/
def clean_output_file (lines : List String) : Option (List String) :=
  match findMarkers lines none 0 with
  | (some s, some e) => some (bannerCommentLines ++ lines.take s ++ lines.drop (e + 1))
  | _ => none

theorem findMarkers_fst_isSome (ls : List String) : ∀ (st : Option Nat) (i : Nat),
    ((findMarkers ls st i).2).isSome = true → ((findMarkers ls st i).1).isSome = true := by
  induction ls with
  | nil =>
    intro st i h
    simp [findMarkers] at h
  | cons l ls ih =>
    intro st i h
    by_cases hH : isHeader l = true
    · rw [findMarkers, if_pos hH] at h ⊢
      exact ih _ _ h
    · by_cases hB : (st.isSome && isBrace l) = true
      · rw [findMarkers, if_neg hH, if_pos hB]
        simp at hB
        exact hB.1
      · rw [findMarkers, if_neg hH, if_neg hB] at h ⊢
        exact ih _ _ h

/-- C2 counterexample: on a file with no markers at all, `clean_output_file`
does not terminate normally with the content preserved -- `new_lines` is
never assigned, the write raises, and the file was already truncated
(modelled: the result is `none`, not the original lines). -/
theorem C2_counterexample :
    clean_output_file ["hello\n"] = none ∧
    clean_output_file ["hello\n"] ≠ some ["hello\n"] := by
  refine ⟨rfl, fun h => ?_⟩
  exact Option.noConfusion h

/-- C2 (amended): `clean_output_file` fails (raises `UnboundLocalError`
after truncating the file, modelled as `none`) exactly when the marker scan
does not find both markers; the prior content is not preserved. -/
theorem C2_amended_missing_marker_raises (lines : List String) :
    clean_output_file lines = none ↔ (findMarkers lines none 0).2 = none := by
  cases hm : findMarkers lines none 0 with
  | mk sm em =>
    cases sm with
    | none =>
      cases em with
      | none =>
        unfold clean_output_file
        rw [hm]
        simp
      | some e =>
        have hf := findMarkers_fst_isSome lines none 0 (by simp [hm])
        rw [hm] at hf
        simp at hf
    | some s =>
      cases em with
      | none =>
        unfold clean_output_file
        rw [hm]
        simp
      | some e =>
        unfold clean_output_file
        rw [hm]
        simp

theorem findMarkers_spec (ls : List String) : ∀ (st : Option Nat) (i : Nat) (s e : Nat),
    (∀ s₀, st = some s₀ → s₀ < i) →
    findMarkers ls st i = (some s, some e) →
    i ≤ e ∧ e < i + ls.length ∧ isBrace (ls.getD (e - i) "") = true ∧
    (st = some s ∨ (i ≤ s ∧ s < i + ls.length ∧ isHeader (ls.getD (s - i) "") = true)) ∧
    s < e ∧
    ∀ j, i ≤ j → s < j → j < e →
      isHeader (ls.getD (j - i) "") = false ∧ isBrace (ls.getD (j - i) "") = false := by
  induction ls with
  | nil =>
    intro st i s e hst h
    simp [findMarkers] at h
  | cons l ls ih =>
    intro st i s e hst h
    by_cases hH : isHeader l = true
    · rw [findMarkers, if_pos hH] at h
      obtain ⟨h1, h2, h3, h4, h5, h6⟩ :=
        ih (some i) (i + 1) s e (fun s₀ hs₀ => by cases hs₀; omega) h
      have hsge : i ≤ s := by
        rcases h4 with h4 | ⟨ha, _, _⟩
        · injection h4 with hh
          omega
        · omega
      refine ⟨by omega, by simp only [List.length_cons]; omega, ?_, ?_, h5, ?_⟩
      · have he : e - i = (e - (i + 1)) + 1 := by omega
        rw [he]
        simpa using h3
      · rcases h4 with h4 | ⟨ha, hb, hc⟩
        · have hs : s = i := by
            injection h4 with hh
            omega
          right
          refine ⟨by omega, by simp only [List.length_cons]; omega, ?_⟩
          rw [hs]
          simpa [Nat.sub_self] using hH
        · right
          refine ⟨by omega, by simp only [List.length_cons]; omega, ?_⟩
          have hsi : s - i = (s - (i + 1)) + 1 := by omega
          rw [hsi]
          simpa using hc
      · intro j hij hsj hje
        by_cases hji : j = i
        · exfalso
          omega
        · have hj1 : i + 1 ≤ j := by omega
          have hh := h6 j hj1 hsj hje
          have hjj : j - i = (j - (i + 1)) + 1 := by omega
          rw [hjj]
          simpa using hh
    · by_cases hB : (st.isSome && isBrace l) = true
      · rw [findMarkers, if_neg hH, if_pos hB] at h
        simp only [Prod.mk.injEq, Option.some.injEq] at h
        obtain ⟨hst', hie⟩ := h
        subst hie
        simp only [Bool.and_eq_true] at hB
        have hsi : s < i := hst s hst'
        refine ⟨Nat.le_refl i, by simp only [List.length_cons]; omega, ?_,
          Or.inl hst', hsi, ?_⟩
        · simpa [Nat.sub_self] using hB.2
        · intro j hij hsj hje
          exfalso
          omega
      · rw [findMarkers, if_neg hH, if_neg hB] at h
        obtain ⟨h1, h2, h3, h4, h5, h6⟩ :=
          ih st (i + 1) s e (fun s₀ hs₀ => by have := hst s₀ hs₀; omega) h
        refine ⟨by omega, by simp only [List.length_cons]; omega, ?_, ?_, h5, ?_⟩
        · have he : e - i = (e - (i + 1)) + 1 := by omega
          rw [he]
          simpa using h3
        · rcases h4 with h4 | ⟨ha, hb, hc⟩
          · exact Or.inl h4
          · right
            refine ⟨by omega, by simp only [List.length_cons]; omega, ?_⟩
            have hsi : s - i = (s - (i + 1)) + 1 := by omega
            rw [hsi]
            simpa using hc
        · intro j hij hsj hje
          by_cases hji : j = i
          · subst hji
            cases hstc : st with
            | none =>
              exfalso
              rcases h4 with h4 | ⟨ha, _, _⟩
              · rw [hstc] at h4
                cases h4
              · omega
            | some s₀ =>
              have hbf : isBrace l = false := by
                cases hbl : isBrace l with
                | false => rfl
                | true =>
                  exfalso
                  exact hB (by simp [hstc, hbl])
              have hhf : isHeader l = false := by
                cases hhl : isHeader l with
                | false => rfl
                | true => exact absurd hhl hH
              constructor
              · simpa [Nat.sub_self] using hhf
              · simpa [Nat.sub_self] using hbf
          · have hj1 : i + 1 ≤ j := by omega
            have hh := h6 j hj1 hsj hje
            have hjj : j - i = (j - (i + 1)) + 1 := by omega
            rw [hjj]
            simpa using hh

/-- C5 counterexample: on a file whose aggregate header line occurs twice
before the first closing brace, the scan records the *last* header
occurrence as `start`, not the first: the rewritten content keeps one copy
of the header line, whereas the claim predicts content equal to the banner
alone. -/
theorem C5_counterexample :
    clean_output_file
        ["export interface _Master_ \x7b\n", "export interface _Master_ \x7b\n", "\x7d\n"]
      = some (bannerCommentLines ++ ["export interface _Master_ \x7b\n"]) ∧
    clean_output_file
        ["export interface _Master_ \x7b\n", "export interface _Master_ \x7b\n", "\x7d\n"]
      ≠ some bannerCommentLines := by
  refine ⟨rfl, fun hcontra => ?_⟩
  have h1 : (some (bannerCommentLines ++ ["export interface _Master_ \x7b\n"]) :
      Option (List String)) = some bannerCommentLines := by
    rw [← hcontra]
    rfl
  have h2 := congrArg List.length (Option.some.inj h1)
  simp [bannerCommentLines] at h2

/-- C5 (amended): whenever the scan finds both markers, the file is
rewritten to the banner, then all lines strictly before `start`, then all
lines strictly after `end`; `end` is the first closing-brace line after the
first header occurrence, and `start` is the *last* header line before `end`
(equivalently: line `start` is a header, line `end` is a closing brace, and
no header or closing-brace line lies strictly between them). -/
theorem C5_amended_excision (lines : List String) (s e : Nat)
    (h : findMarkers lines none 0 = (some s, some e)) :
    clean_output_file lines =
      some (bannerCommentLines ++ lines.take s ++ lines.drop (e + 1)) ∧
    s < e ∧ isHeader (lines.getD s "") = true ∧ isBrace (lines.getD e "") = true ∧
    ∀ j, s < j → j < e →
      isHeader (lines.getD j "") = false ∧ isBrace (lines.getD j "") = false := by
  obtain ⟨h1, h2, h3, h4, h5, h6⟩ :=
    findMarkers_spec lines none 0 s e (fun s₀ hs₀ => by cases hs₀) h
  refine ⟨?_, h5, ?_, ?_, ?_⟩
  · unfold clean_output_file
    rw [h]
  · rcases h4 with h4 | ⟨_, _, hc⟩
    · cases h4
    · simpa using hc
  · simpa using h3
  · intro j hsj hje
    have hh := h6 j (Nat.zero_le j) hsj hje
    simpa using hh

/-- C5 witness: the amended theorem applied to a concrete file with one
aggregate block between two ordinary lines. -/
theorem C5_witness :
    clean_output_file
        ["export interface A \x7b\n", "export interface _Master_ \x7b\n", "\x7d\n", "tail\n"] =
      some (bannerCommentLines ++ ["export interface A \x7b\n"] ++ ["tail\n"]) ∧
    (1 : Nat) < 2 ∧
    isHeader
      ((["export interface A \x7b\n", "export interface _Master_ \x7b\n", "\x7d\n",
        "tail\n"] : List String).getD 1 "") = true ∧
    isBrace
      ((["export interface A \x7b\n", "export interface _Master_ \x7b\n", "\x7d\n",
        "tail\n"] : List String).getD 2 "") = true ∧
    ∀ j, 1 < j → j < 2 →
      isHeader
        ((["export interface A \x7b\n", "export interface _Master_ \x7b\n", "\x7d\n",
          "tail\n"] : List String).getD j "") = false ∧
      isBrace
        ((["export interface A \x7b\n", "export interface _Master_ \x7b\n", "\x7d\n",
          "tail\n"] : List String).getD j "") = false :=
  C5_amended_excision
    ["export interface A \x7b\n", "export interface _Master_ \x7b\n", "\x7d\n", "tail\n"]
    1 2 rfl

/-! ### `generate_schema`'s extra-policy override (pydantic2ts.py lines 206-246) -/

/-- Lines 217-219: `for m in pyd_models: if m.model_config.get("extra", None)
!= "allow": m.model_config["extra"] = "forbid"`.  Each list entry is one
model's `model_config.get("extra", None)` value. -/
def overrideExtras (es : List (Option String)) : List (Option String) :=
  es.map fun e => if e = some "allow" then e else some "forbid"

/-- The `extra` config of each pydantic model after `generate_schema`
returns or raises.  Line 222 records `all_model_extras` only *after* the
override loop of lines 217-219 has already run, so the values recorded are
the overridden ones; the `finally` block of lines 243-246 then writes those
recorded values back (typed dicts are recorded as `None` and skipped; the
`try` body never touches the input models' configs, and the `finally` block
runs on both the normal and the raising path, so the result does not depend
on `raised`). -/
def afterGenerateSchemaExtras (_raised : Bool) (es : List (Option String)) :
    List (Option String) :=
  let overridden := overrideExtras es
  let recorded := overridden
  List.zipWith (fun cur rec => match rec with | some x => some x | none => cur)
    overridden recorded

/-- C1: the extra-fields policy of a model whose policy was unset before the
call is *not* restored: `generate_schema` leaves it at `"forbid"` on both the
normal and the raising path, contradicting the claim (and the function's own
docstring, "This change is reverted once the schema has been generated"). -/
theorem C1_extra_policy_not_restored :
    afterGenerateSchemaExtras false [none] = [some "forbid"] ∧
    afterGenerateSchemaExtras true [none] = [some "forbid"] ∧
    (some "forbid" : Option String) ≠ none := by
  refine ⟨rfl, rfl, ?_⟩
  intro h
  exact Option.noConfusion h

/-! ### The definitions mapping produced by `generate_schema` (lines 206-246)
and the exclusion filter of `generate_typescript_defs` (lines 268-301) -/

/-- An OpenableRecord declaration (a concrete pydantic model): its name, its
`model_config.get("extra", None)` value, the names of the declarations its
fields reference, and its property schemas as emitted by the reflection
capability. -/
structure PydModel where
  name : String
  extra : Option String
  refs : List String
  props : List (String × List (String × JVal))

/-- A StructuralRecord declaration (a TypedDict): name, referenced
declaration names, property schemas, and arbitrary further raw key/value
content of its reflected definition body. -/
structure TypedDictModel where
  name : String
  refs : List String
  props : List (String × List (String × JVal))
  rawExtra : List (String × JVal)

/-- The effective `extra` config of a pydantic model while the schema is
generated, after the override of lines 217-219. -/
def effExtra (e : Option String) : Option String :=
  if e = some "allow" then some "allow" else some "forbid"

/-- Modelled from the spec: the reflection capability of the host
record-type library ("ask a record type for its JSON Schema") is external
to this repository.  Per spec sections 2 and 4.3 it emits, for an
OpenableRecord, a definition body carrying the declaration's title, its
property schemas, and its extra-fields openness -- open exactly when the
effective policy is `allow`. -/
def reflectPyd (m : PydModel) : List (String × JVal) :=
  [("title", JVal.str m.name),
   ("properties", JVal.obj (m.props.map fun kp => (kp.1, JVal.obj kp.2))),
   ("additionalProperties", JVal.bool (decide (effExtra m.extra = some "allow")))]

/-- Modelled from the spec: the reflected definition body of a
StructuralRecord -- title, arbitrary further raw content, and property
schemas; a TypedDict has no native extra-fields concept, so no openness
flag is emitted by reflection. -/
def reflectTD (td : TypedDictModel) : List (String × JVal) :=
  ("title", JVal.str td.name) ::
    (td.rawExtra ++
      [("properties", JVal.obj (td.props.map fun kp => (kp.1, JVal.obj kp.2)))])

/-- A declaration of either kind, as resolvable in the ambient program. -/
inductive UDecl where
  | P : PydModel → UDecl
  | T : TypedDictModel → UDecl

def UDecl.name : UDecl → String
  | .P m => m.name
  | .T td => td.name

def UDecl.refs : UDecl → List String
  | .P m => m.refs
  | .T td => td.refs

def reflectDef : UDecl → List (String × JVal)
  | .P m => reflectPyd m
  | .T td => reflectTD td

/-- One step of reference chasing: add every name referenced by a
declaration already reached. -/
def reachStep (env : List UDecl) (cur : List String) : List String :=
  cur ++ (((env.filter fun d => decide (d.name ∈ cur)).map UDecl.refs).flatten.filter
    fun n => decide (n ∉ cur))

def iterSteps {α : Type} : Nat → (α → α) → α → α
  | 0, _, a => a
  | n + 1, f, a => iterSteps n f (f a)

/-- Modelled from the spec: the definitions mapping of the generated schema
covers every declaration reachable from the aggregate (spec 4.3) -- the
names reachable from the aggregate's direct fields through field
references. -/
def closureNames (env : List UDecl) (init : List String) : List String :=
  iterSteps (env.length + 1) (reachStep env) init

/-- Line 238's `is_typeddict` argument: `d["title"] in [td.__name__ for td
in typed_dicts]`; a `KeyError` on a definition without a title is modelled
as `none`. -/
def tdFlag (tds : List TypedDictModel) (d : List (String × JVal)) : Option Bool :=
  match alookup d "title" with
  | some (JVal.str n) => some (decide (n ∈ tds.map TypedDictModel.name))
  | some _ => some false
  | none => none

/-- Lines 236-239: clean one definition of the document, keyed by the
declaration's name, with the typed-dict flag computed from its title. -/
def cleanDef (tds : List TypedDictModel) (d : UDecl) :
    Option (String × List (String × JVal)) :=
  match tdFlag tds (reflectDef d) with
  | none => none
  | some b => (clean_schema (reflectDef d) b).map fun c => (d.name, c)

def mapOpt {α β : Type} (f : α → Option β) : List α → Option (List β)
  | [] => some []
  | a :: l =>
    match f a, mapOpt f l with
    | some b, some bs => some (b :: bs)
    | _, _ => none

/-- The declarations the master model references as direct fields
(line 227). -/
def initNames (pyd : List PydModel) (tds : List TypedDictModel) : List String :=
  pyd.map PydModel.name ++ tds.map TypedDictModel.name

/-- The ambient declaration environment: the models passed to
`generate_schema` plus the other declarations of the program (`envP`,
`envT`) that field references still resolve to. -/
def univDecls (pyd : List PydModel) (tds : List TypedDictModel)
    (envP : List PydModel) (envT : List TypedDictModel) : List UDecl :=
  pyd.map UDecl.P ++ tds.map UDecl.T ++ envP.map UDecl.P ++ envT.map UDecl.T

/-- The cleaned definitions mapping (`schema["$defs"]` after the loop of
lines 236-239) produced by `generate_schema(pyd_models, typed_dicts)`: one
cleaned definition per declaration reachable from the aggregate. -/
def generate_schema_defs (pyd : List PydModel) (tds : List TypedDictModel)
    (envP : List PydModel) (envT : List TypedDictModel) :
    Option (List (String × List (String × JVal))) :=
  let env := univDecls pyd tds envP envT
  let reach := closureNames env (initNames pyd tds)
  mapOpt (cleanDef tds) (env.filter fun d => decide (d.name ∈ reach))

theorem mem_iterSteps_of_mem (env : List UDecl) (n : Nat) :
    ∀ (cur : List String) (x : String), x ∈ cur → x ∈ iterSteps n (reachStep env) cur := by
  induction n with
  | zero => intro cur x hx; exact hx
  | succ n ih =>
    intro cur x hx
    exact ih (reachStep env cur) x (List.mem_append_left _ hx)

theorem mem_refs_of_mem_reachStep (env : List UDecl) (cur : List String) (x : String)
    (hx : x ∈ reachStep env cur) : x ∈ cur ∨ x ∈ (env.map UDecl.refs).flatten := by
  unfold reachStep at hx
  rcases List.mem_append.mp hx with h | h
  · exact Or.inl h
  · right
    have h' := (List.mem_filter.mp h).1
    rcases List.mem_flatten.mp h' with ⟨l, hl, hxl⟩
    rcases List.mem_map.mp hl with ⟨d, hd, rfl⟩
    exact List.mem_flatten.mpr
      ⟨UDecl.refs d, List.mem_map.mpr ⟨d, (List.mem_filter.mp hd).1, rfl⟩, hxl⟩

theorem iterSteps_sound (env : List UDecl) (n : Nat) :
    ∀ (cur : List String) (x : String), x ∈ iterSteps n (reachStep env) cur →
      x ∈ cur ∨ x ∈ (env.map UDecl.refs).flatten := by
  induction n with
  | zero => intro cur x hx; exact Or.inl hx
  | succ n ih =>
    intro cur x hx
    rcases ih (reachStep env cur) x hx with h | h
    · exact mem_refs_of_mem_reachStep env cur x h
    · exact Or.inr h

theorem mapOpt_mem {α β : Type} (f : α → Option β) :
    ∀ (l : List α) (ys : List β) (a : α), mapOpt f l = some ys → a ∈ l →
      ∃ y, f a = some y ∧ y ∈ ys := by
  intro l
  induction l with
  | nil =>
    intro ys a h ha
    simp at ha
  | cons x l ih =>
    intro ys a h ha
    cases hfx : f x with
    | none => simp [mapOpt, hfx] at h
    | some b =>
      cases hml : mapOpt f l with
      | none => simp [mapOpt, hfx, hml] at h
      | some bs =>
        simp [mapOpt, hfx, hml] at h
        subst h
        rcases List.mem_cons.mp ha with rfl | ha'
        · exact ⟨b, hfx, List.mem_cons_self _ _⟩
        · obtain ⟨y, hy1, hy2⟩ := ih bs a hml ha'
          exact ⟨y, hy1, List.mem_cons_of_mem _ hy2⟩

theorem mapOpt_mem_rev {α β : Type} (f : α → Option β) :
    ∀ (l : List α) (ys : List β) (y : β), mapOpt f l = some ys → y ∈ ys →
      ∃ a, a ∈ l ∧ f a = some y := by
  intro l
  induction l with
  | nil =>
    intro ys y h hy
    simp [mapOpt] at h
    subst h
    simp at hy
  | cons x l ih =>
    intro ys y h hy
    cases hfx : f x with
    | none => simp [mapOpt, hfx] at h
    | some b =>
      cases hml : mapOpt f l with
      | none => simp [mapOpt, hfx, hml] at h
      | some bs =>
        simp [mapOpt, hfx, hml] at h
        subst h
        rcases List.mem_cons.mp hy with rfl | hy'
        · exact ⟨x, List.mem_cons_self _ _, hfx⟩
        · obtain ⟨a, ha1, ha2⟩ := ih bs y hml hy'
          exact ⟨a, List.mem_cons_of_mem _ ha1, ha2⟩

theorem mapOpt_alookup {α β : Type} (nameOf : α → String) (f : α → Option (String × β))
    (hf : ∀ a y, f a = some y → y.1 = nameOf a) :
    ∀ (l : List α) (ys : List (String × β)) (d : α) (b : β),
      mapOpt f l = some ys → d ∈ l → f d = some (nameOf d, b) →
      (l.map nameOf).Nodup → alookup ys (nameOf d) = some b := by
  intro l
  induction l with
  | nil =>
    intro ys d b h hd
    simp at hd
  | cons a l ih =>
    intro ys d b h hd hfd hnd
    cases hfa : f a with
    | none => simp [mapOpt, hfa] at h
    | some y =>
      cases hml : mapOpt f l with
      | none => simp [mapOpt, hfa, hml] at h
      | some bs =>
        simp [mapOpt, hfa, hml] at h
        subst h
        rw [List.map_cons] at hnd
        have hnd' := List.nodup_cons.mp hnd
        obtain ⟨y1, y2⟩ := y
        have hya : y1 = nameOf a := hf a (y1, y2) hfa
        subst hya
        rcases List.mem_cons.mp hd with rfl | hd'
        · rw [hfa] at hfd
          have hpair := Option.some.inj hfd
          have hb : y2 = b := congrArg Prod.snd hpair
          subst hb
          simp [alookup]
        · have hne : nameOf a ≠ nameOf d := by
            intro hcontra
            exact hnd'.1 (hcontra ▸ List.mem_map.mpr ⟨d, hd', rfl⟩)
          rw [show alookup ((nameOf a, y2) :: bs) (nameOf d) = alookup bs (nameOf d) from by
            simp [alookup, hne]]
          exact ih bs d b hml hd' hfd hnd'.2

theorem cleanDef_name (tds : List TypedDictModel) (d : UDecl)
    (y : String × List (String × JVal)) (h : cleanDef tds d = some y) :
    y.1 = d.name := by
  unfold cleanDef at h
  cases hf : tdFlag tds (reflectDef d) with
  | none =>
    rw [hf] at h
    cases h
  | some b =>
    rw [hf] at h
    have h' : Option.map (fun c => (d.name, c)) (clean_schema (reflectDef d) b) = some y := h
    cases hc : clean_schema (reflectDef d) b with
    | none =>
      rw [hc] at h'
      cases h'
    | some c =>
      rw [hc] at h'
      simp only [Option.map_some', Option.some.injEq] at h'
      rw [← h']

theorem clean_schema_true_addl (s t : List (String × JVal))
    (h : clean_schema s true = some t) :
    alookup t "additionalProperties" = some (JVal.bool false) := by
  obtain ⟨s2, hps, rfl⟩ := clean_schema_eq_some s true _ h
  rw [alookup_enumStep_ne _ _ (by decide), alookup_propsStep_ne _ _ _ hps (by decide)]
  simp only [addlStep, if_pos]
  exact alookup_ainsert_self _ _ _

theorem clean_schema_false_addl (s t : List (String × JVal))
    (h : clean_schema s false = some t) :
    alookup t "additionalProperties" = alookup s "additionalProperties" := by
  obtain ⟨s2, hps, rfl⟩ := clean_schema_eq_some s false _ h
  rw [alookup_enumStep_ne _ _ (by decide), alookup_propsStep_ne _ _ _ hps (by decide)]
  rfl

theorem alookup_cleanProp_title (p : List (String × JVal)) :
    alookup (cleanProp p) "title" = none := by
  cases hv : alookup (aerase p "title") "prefixItems" with
  | none =>
    have h : cleanProp p = aerase p "title" := by simp only [cleanProp, hv]
    rw [h]
    exact alookup_aerase_self p "title"
  | some v =>
    have h : cleanProp p = ainsert (aerase p "title") "items" v := by
      simp only [cleanProp, hv]
    rw [h, alookup_ainsert_ne _ _ _ _ (by decide)]
    exact alookup_aerase_self p "title"

theorem clean_schema_prop_title_removed (s t ps : List (String × JVal)) (b : Bool)
    (k : String) (v : JVal)
    (h : clean_schema s b = some t)
    (hp : alookup t "properties" = some (JVal.obj ps))
    (hv : (k, v) ∈ ps) :
    ∃ p, v = JVal.obj p ∧ alookup p "title" = none := by
  obtain ⟨s2, hpsstep, rfl⟩ := clean_schema_eq_some s b _ h
  rw [alookup_enumStep_ne _ _ (by decide)] at hp
  rcases propsStep_eq_some _ _ hpsstep with ⟨hnone, rfl⟩ | ⟨ps0, ps', hp0, hcps, rfl⟩
  · rw [hnone] at hp
    cases hp
  · rw [alookup_ainsert_self] at hp
    have hps' : ps' = ps := by
      have := Option.some.inj hp
      injection this
    subst hps'
    obtain ⟨p, hpv⟩ := cleanProps_mem_rev ps0 ps' k v hcps hv
    exact ⟨cleanProp p, hpv, alookup_cleanProp_title p⟩

/-- C6: an OpenableRecord whose `extra` policy is explicitly `allow` yields
an open definition in the cleaned document (`additionalProperties` true);
one whose policy is unset or explicitly `forbid` yields a closed definition
(`additionalProperties` false).  Declaration names are assumed unique across
the run, the spec's stated invariant. -/
theorem C6_openable_policy (pyd : List PydModel) (tds : List TypedDictModel)
    (envP : List PydModel) (envT : List TypedDictModel)
    (defs : List (String × List (String × JVal))) (m : PydModel)
    (hgen : generate_schema_defs pyd tds envP envT = some defs)
    (hm : m ∈ pyd)
    (hnodup : ((univDecls pyd tds envP envT).map UDecl.name).Nodup) :
    ∃ body, alookup defs m.name = some body ∧
      (m.extra = some "allow" →
        alookup body "additionalProperties" = some (JVal.bool true)) ∧
      ((m.extra = none ∨ m.extra = some "forbid") →
        alookup body "additionalProperties" = some (JVal.bool false)) := by
  simp only [generate_schema_defs] at hgen
  have hmu : UDecl.P m ∈ univDecls pyd tds envP envT := by
    unfold univDecls
    exact List.mem_append_left _
      (List.mem_append_left _ (List.mem_append_left _ (List.mem_map.mpr ⟨m, hm, rfl⟩)))
  have hreach : (UDecl.P m).name ∈
      closureNames (univDecls pyd tds envP envT) (initNames pyd tds) := by
    unfold closureNames
    apply mem_iterSteps_of_mem
    unfold initNames
    exact List.mem_append_left _ (List.mem_map.mpr ⟨m, hm, rfl⟩)
  have hsel : UDecl.P m ∈ (univDecls pyd tds envP envT).filter
      (fun d => decide (d.name ∈
        closureNames (univDecls pyd tds envP envT) (initNames pyd tds))) :=
    List.mem_filter.mpr ⟨hmu, decide_eq_true hreach⟩
  obtain ⟨y, hy, hymem⟩ := mapOpt_mem _ _ _ _ hgen hsel
  have hmn : m.name ∉ tds.map TypedDictModel.name := by
    simp only [univDecls, List.map_append, List.map_map] at hnodup
    have h1 := (List.nodup_append.mp hnodup).1
    have h2 := (List.nodup_append.mp h1).1
    have hd := (List.nodup_append.mp h2).2.2
    intro hcontra
    rcases List.mem_map.mp hcontra with ⟨td, htd, htdname⟩
    exact hd (List.mem_map.mpr ⟨m, hm, rfl⟩) (List.mem_map.mpr ⟨td, htd, htdname⟩)
  have hflag : tdFlag tds (reflectDef (UDecl.P m)) = some false := by
    unfold tdFlag
    have htitle : alookup (reflectDef (UDecl.P m)) "title" = some (JVal.str m.name) := rfl
    rw [htitle]
    simp [hmn]
  unfold cleanDef at hy
  rw [hflag] at hy
  have hy' : Option.map (fun c => ((UDecl.P m).name, c))
      (clean_schema (reflectDef (UDecl.P m)) false) = some y := hy
  cases hcs : clean_schema (reflectDef (UDecl.P m)) false with
  | none =>
    rw [hcs] at hy'
    cases hy'
  | some body =>
    rw [hcs] at hy'
    simp only [Option.map_some', Option.some.injEq] at hy'
    subst hy'
    have haddl : alookup body "additionalProperties"
        = some (JVal.bool (decide (effExtra m.extra = some "allow"))) := by
      rw [clean_schema_false_addl _ _ hcs]
      rfl
    have hcd : cleanDef tds (UDecl.P m) = some ((UDecl.P m).name, body) := by
      unfold cleanDef
      rw [hflag]
      show Option.map (fun c => ((UDecl.P m).name, c))
        (clean_schema (reflectDef (UDecl.P m)) false) = _
      rw [hcs]
      rfl
    have hnodup' : (((univDecls pyd tds envP envT).filter
        (fun d => decide (d.name ∈
          closureNames (univDecls pyd tds envP envT) (initNames pyd tds)))).map
        UDecl.name).Nodup :=
      List.Nodup.sublist ((List.filter_sublist _).map _) hnodup
    have hlook : alookup defs ((UDecl.P m).name) = some body :=
      mapOpt_alookup UDecl.name (cleanDef tds) (cleanDef_name tds) _ defs
        (UDecl.P m) body hgen hsel hcd hnodup'
    refine ⟨body, hlook, ?_, ?_⟩
    · intro hallow
      rw [haddl, hallow]
      rfl
    · intro hcase
      rw [haddl]
      rcases hcase with hx | hx <;> (rw [hx]; rfl)

/-- C6 witness: one OpenableRecord with explicit policy `allow`. -/
theorem C6_witness :
    ∃ body, alookup
        [("A", [("title", JVal.str "A"), ("properties", JVal.obj []),
          ("additionalProperties", JVal.bool true)])]
        (PydModel.mk "A" (some "allow") [] []).name = some body ∧
      ((PydModel.mk "A" (some "allow") [] []).extra = some "allow" →
        alookup body "additionalProperties" = some (JVal.bool true)) ∧
      (((PydModel.mk "A" (some "allow") [] []).extra = none ∨
        (PydModel.mk "A" (some "allow") [] []).extra = some "forbid") →
        alookup body "additionalProperties" = some (JVal.bool false)) :=
  C6_openable_policy [PydModel.mk "A" (some "allow") [] []] [] [] []
    [("A", [("title", JVal.str "A"), ("properties", JVal.obj []),
      ("additionalProperties", JVal.bool true)])]
    (PydModel.mk "A" (some "allow") [] []) rfl (List.mem_cons_self _ _) (by decide)

/-- C7: every StructuralRecord (TypedDict) definition in the cleaned
document is closed -- `additionalProperties` is false -- regardless of any
policy-like content in its raw reflected body, because line 193 of
`clean_schema` forces the flag whenever the definition's title matches a
TypedDict name.  Declaration names are assumed unique across the run, the
spec's stated invariant. -/
theorem C7_typeddict_closed (pyd : List PydModel) (tds : List TypedDictModel)
    (envP : List PydModel) (envT : List TypedDictModel)
    (defs : List (String × List (String × JVal))) (td : TypedDictModel)
    (hgen : generate_schema_defs pyd tds envP envT = some defs)
    (htd : td ∈ tds)
    (hnodup : ((univDecls pyd tds envP envT).map UDecl.name).Nodup) :
    ∃ body, alookup defs td.name = some body ∧
      alookup body "additionalProperties" = some (JVal.bool false) := by
  simp only [generate_schema_defs] at hgen
  have hmu : UDecl.T td ∈ univDecls pyd tds envP envT := by
    unfold univDecls
    exact List.mem_append_left _ (List.mem_append_left _
      (List.mem_append_right _ (List.mem_map.mpr ⟨td, htd, rfl⟩)))
  have hreach : (UDecl.T td).name ∈
      closureNames (univDecls pyd tds envP envT) (initNames pyd tds) := by
    unfold closureNames
    apply mem_iterSteps_of_mem
    unfold initNames
    exact List.mem_append_right _ (List.mem_map.mpr ⟨td, htd, rfl⟩)
  have hsel : UDecl.T td ∈ (univDecls pyd tds envP envT).filter
      (fun d => decide (d.name ∈
        closureNames (univDecls pyd tds envP envT) (initNames pyd tds))) :=
    List.mem_filter.mpr ⟨hmu, decide_eq_true hreach⟩
  obtain ⟨y, hy, hymem⟩ := mapOpt_mem _ _ _ _ hgen hsel
  have hflag : tdFlag tds (reflectDef (UDecl.T td)) = some true := by
    unfold tdFlag
    have htitle : alookup (reflectDef (UDecl.T td)) "title" = some (JVal.str td.name) := rfl
    rw [htitle]
    have hmem : td.name ∈ tds.map TypedDictModel.name := List.mem_map.mpr ⟨td, htd, rfl⟩
    simp [hmem]
  unfold cleanDef at hy
  rw [hflag] at hy
  have hy' : Option.map (fun c => ((UDecl.T td).name, c))
      (clean_schema (reflectDef (UDecl.T td)) true) = some y := hy
  cases hcs : clean_schema (reflectDef (UDecl.T td)) true with
  | none =>
    rw [hcs] at hy'
    cases hy'
  | some body =>
    rw [hcs] at hy'
    simp only [Option.map_some', Option.some.injEq] at hy'
    subst hy'
    have hcd : cleanDef tds (UDecl.T td) = some ((UDecl.T td).name, body) := by
      unfold cleanDef
      rw [hflag]
      show Option.map (fun c => ((UDecl.T td).name, c))
        (clean_schema (reflectDef (UDecl.T td)) true) = _
      rw [hcs]
      rfl
    have hnodup' : (((univDecls pyd tds envP envT).filter
        (fun d => decide (d.name ∈
          closureNames (univDecls pyd tds envP envT) (initNames pyd tds)))).map
        UDecl.name).Nodup :=
      List.Nodup.sublist ((List.filter_sublist _).map _) hnodup
    have hlook : alookup defs ((UDecl.T td).name) = some body :=
      mapOpt_alookup UDecl.name (cleanDef tds) (cleanDef_name tds) _ defs
        (UDecl.T td) body hgen hsel hcd hnodup'
    exact ⟨body, hlook, clean_schema_true_addl _ _ hcs⟩

/-- C7 witness: one TypedDict declaration, including a policy-like raw
field (`additionalProperties` true in its raw body) that cleaning must
override. -/
theorem C7_witness :
    ∃ body, alookup
        [("B", [("title", JVal.str "B"), ("additionalProperties", JVal.bool false),
          ("properties", JVal.obj [])])]
        (TypedDictModel.mk "B" [] [] [("additionalProperties", JVal.bool true)]).name
        = some body ∧
      alookup body "additionalProperties" = some (JVal.bool false) :=
  C7_typeddict_closed [] [TypedDictModel.mk "B" [] [] [("additionalProperties", JVal.bool true)]]
    [] []
    [("B", [("title", JVal.str "B"), ("additionalProperties", JVal.bool false),
      ("properties", JVal.obj [])])]
    (TypedDictModel.mk "B" [] [] [("additionalProperties", JVal.bool true)])
    rfl (List.mem_cons_self _ _) (by decide)

/-- C8: after cleaning, no declared property of any definition in the
document retains a `title` key. -/
theorem C8_no_property_titles (pyd : List PydModel) (tds : List TypedDictModel)
    (envP : List PydModel) (envT : List TypedDictModel)
    (defs : List (String × List (String × JVal)))
    (n : String) (body ps : List (String × JVal)) (k : String) (v : JVal)
    (hgen : generate_schema_defs pyd tds envP envT = some defs)
    (hmem : (n, body) ∈ defs)
    (hprops : alookup body "properties" = some (JVal.obj ps))
    (hv : (k, v) ∈ ps) :
    ∃ p, v = JVal.obj p ∧ alookup p "title" = none := by
  simp only [generate_schema_defs] at hgen
  obtain ⟨d, _, hfd⟩ := mapOpt_mem_rev _ _ _ _ hgen hmem
  unfold cleanDef at hfd
  cases hf : tdFlag tds (reflectDef d) with
  | none =>
    rw [hf] at hfd
    cases hfd
  | some b =>
    rw [hf] at hfd
    have hfd' : Option.map (fun c => (d.name, c))
        (clean_schema (reflectDef d) b) = some (n, body) := hfd
    cases hc : clean_schema (reflectDef d) b with
    | none =>
      rw [hc] at hfd'
      cases hfd'
    | some c =>
      rw [hc] at hfd'
      simp only [Option.map_some', Option.some.injEq, Prod.mk.injEq] at hfd'
      obtain ⟨-, hbody⟩ := hfd'
      subst hbody
      exact clean_schema_prop_title_removed _ _ _ _ _ _ hc hprops hv

/-- C8 witness: a concrete one-model document whose single property carried
a title before cleaning. -/
theorem C8_witness :
    ∃ p, JVal.obj ([] : List (String × JVal)) = JVal.obj p ∧ alookup p "title" = none :=
  C8_no_property_titles [PydModel.mk "A" none [] [("x", [("title", JVal.str "X")])]] [] [] []
    [("A", [("title", JVal.str "A"), ("properties", JVal.obj [("x", JVal.obj [])]),
      ("additionalProperties", JVal.bool false)])]
    "A"
    [("title", JVal.str "A"), ("properties", JVal.obj [("x", JVal.obj [])]),
      ("additionalProperties", JVal.bool false)]
    [("x", JVal.obj [])] "x" (JVal.obj [])
    rfl (List.mem_cons_self _ _) rfl (List.mem_cons_self _ _)

/-- Lines 295-297: `models = [m for m in models if m.__name__ not in
exclude]`. -/
def filterExcludedP (models : List PydModel) (exclude : List String) : List PydModel :=
  models.filter fun m => decide (m.name ∉ exclude)

/-- Lines 295-297 for the TypedDict list. -/
def filterExcludedT (tds : List TypedDictModel) (exclude : List String) :
    List TypedDictModel :=
  tds.filter fun td => decide (td.name ∉ exclude)

/-- The definitions mapping produced by `generate_typescript_defs` (lines
292-301): discovery lists filtered by the exclusion set, then handed to
`generate_schema`.  The excluded declarations are removed only from those
lists; as program classes they remain resolvable by the reflection
capability, so they form the resolution environment. -/
def generate_typescript_defs_defs (allP : List PydModel) (allT : List TypedDictModel)
    (exclude : List String) : Option (List (String × List (String × JVal))) :=
  generate_schema_defs (filterExcludedP allP exclude) (filterExcludedT allT exclude)
    (allP.filter fun m => decide (m.name ∈ exclude))
    (allT.filter fun td => decide (td.name ∈ exclude))

/-- C3 counterexample: model `O` references excluded model `U`; `U` is
absent from the filtered discovery list but its definition reappears in the
final definitions mapping through the transitive closure of references,
contradicting the claim. -/
theorem C3_counterexample :
    (generate_typescript_defs_defs
        [PydModel.mk "U" none [] [], PydModel.mk "O" none ["U"] []] [] ["U"]).isSome = true ∧
    "U" ∉ (filterExcludedP
        [PydModel.mk "U" none [] [], PydModel.mk "O" none ["U"] []] ["U"]).map PydModel.name ∧
    "U" ∈ ((generate_typescript_defs_defs
        [PydModel.mk "U" none [] [], PydModel.mk "O" none ["U"] []] [] ["U"]).getD []).map
        Prod.fst := by
  refine ⟨rfl, by decide, by decide⟩

/-- C3 (amended): a declaration excluded by name is absent from both
filtered discovery lists handed to unification; its definition is also
absent from the final definitions mapping *provided no declaration of the
program references it* -- when a surviving declaration references it, the
transitive definition closure can re-introduce it (see the
counterexample). -/
theorem C3_amended_exclusion (allP : List PydModel) (allT : List TypedDictModel)
    (exclude : List String) (n : String)
    (hx : n ∈ exclude) :
    n ∉ (filterExcludedP allP exclude).map PydModel.name ∧
    n ∉ (filterExcludedT allT exclude).map TypedDictModel.name ∧
    (n ∉ (allP.map PydModel.refs).flatten → n ∉ (allT.map TypedDictModel.refs).flatten →
      ∀ defs, generate_typescript_defs_defs allP allT exclude = some defs →
        n ∉ defs.map Prod.fst) := by
  have hkP : n ∉ (filterExcludedP allP exclude).map PydModel.name := by
    intro hcontra
    rcases List.mem_map.mp hcontra with ⟨m, hm, hname⟩
    exact (of_decide_eq_true (List.mem_filter.mp hm).2) (hname ▸ hx)
  have hkT : n ∉ (filterExcludedT allT exclude).map TypedDictModel.name := by
    intro hcontra
    rcases List.mem_map.mp hcontra with ⟨t, ht, hname⟩
    exact (of_decide_eq_true (List.mem_filter.mp ht).2) (hname ▸ hx)
  refine ⟨hkP, hkT, ?_⟩
  intro hrefP hrefT defs hgen hcontra
  rcases List.mem_map.mp hcontra with ⟨y, hmem, hfst⟩
  simp only [generate_typescript_defs_defs, generate_schema_defs] at hgen
  obtain ⟨d, hd, hfd⟩ := mapOpt_mem_rev _ _ _ _ hgen hmem
  have hdn : d.name = n := by
    rw [← hfst]
    exact (cleanDef_name _ _ _ hfd).symm
  have hd2 := List.mem_filter.mp hd
  have hdreach := of_decide_eq_true hd2.2
  rw [hdn] at hdreach
  have hsound := iterSteps_sound _ _ _ _ hdreach
  have henv : ∀ d' : UDecl,
      d' ∈ univDecls (filterExcludedP allP exclude) (filterExcludedT allT exclude)
        (allP.filter fun m => decide (m.name ∈ exclude))
        (allT.filter fun td => decide (td.name ∈ exclude)) →
      (∃ m : PydModel, m ∈ allP ∧ d' = UDecl.P m) ∨
      (∃ t : TypedDictModel, t ∈ allT ∧ d' = UDecl.T t) := by
    intro d' hd'
    unfold univDecls at hd'
    rcases List.mem_append.mp hd' with hABC | hD
    · rcases List.mem_append.mp hABC with hAB | hC
      · rcases List.mem_append.mp hAB with hA | hB
        · rcases List.mem_map.mp hA with ⟨m, hm, rfl⟩
          exact Or.inl ⟨m, (List.mem_filter.mp hm).1, rfl⟩
        · rcases List.mem_map.mp hB with ⟨t, ht, rfl⟩
          exact Or.inr ⟨t, (List.mem_filter.mp ht).1, rfl⟩
      · rcases List.mem_map.mp hC with ⟨m, hm, rfl⟩
        exact Or.inl ⟨m, (List.mem_filter.mp hm).1, rfl⟩
    · rcases List.mem_map.mp hD with ⟨t, ht, rfl⟩
      exact Or.inr ⟨t, (List.mem_filter.mp ht).1, rfl⟩
  rcases hsound with hinit | hrefs
  · unfold initNames at hinit
    rcases List.mem_append.mp hinit with h | h
    · exact hkP h
    · exact hkT h
  · rcases List.mem_flatten.mp hrefs with ⟨l, hl, hnl⟩
    rcases List.mem_map.mp hl with ⟨d', hd', rfl⟩
    rcases henv d' hd' with ⟨m, hmall, rfl⟩ | ⟨t, htall, rfl⟩
    · exact hrefP (List.mem_flatten.mpr ⟨m.refs, List.mem_map.mpr ⟨m, hmall, rfl⟩, hnl⟩)
    · exact hrefT (List.mem_flatten.mpr ⟨t.refs, List.mem_map.mpr ⟨t, htall, rfl⟩, hnl⟩)

/-- C3 witness: the amended theorem applied to a program with a single,
unreferenced model and an exclusion of an absent name. -/
theorem C3_witness :
    "Z" ∉ ([("W", [("title", JVal.str "W"), ("properties", JVal.obj []),
        ("additionalProperties", JVal.bool false)])].map Prod.fst) :=
  (C3_amended_exclusion [PydModel.mk "W" none [] []] [] ["Z"] "Z"
      (List.mem_cons_self _ _)).2.2 (by decide) (by decide)
    [("W", [("title", JVal.str "W"), ("properties", JVal.obj []),
      ("additionalProperties", JVal.bool false)])] rfl

/-! ### Converter invocation (pydantic2ts.py lines 309-329) -/

/-- The externally visible steps of the tail of `generate_typescript_defs`
in normal (non-schema-only) mode. -/
inductive ConvEvent where
  | writeSchema
  | runConverter
  | rmTree
  | postProcess
deriving DecidableEq

/-- Lines 309-329: write the schema to the temporary directory, run the
converter (`os.system`), delete the temporary directory unconditionally,
then either post-process the output (exit code 0) or raise `RuntimeError`
with the message of line 328.  The returned pair is the ordered list of
performed steps and the raised error message, if any. -/
def converterPhase (json2ts_cmd : String) (exitCode : Nat) :
    List ConvEvent × Option String :=
  let pre := [ConvEvent.writeSchema, ConvEvent.runConverter, ConvEvent.rmTree]
  if exitCode = 0 then (pre ++ [ConvEvent.postProcess], none)
  else (pre, some ("\"" ++ json2ts_cmd ++ "\" failed with exit code "
    ++ toString exitCode ++ "."))

/-- C9: on a non-zero converter exit status the run raises an error naming
the converter command and the exit status, the output post-processor does
not run, and the temporary schema directory has been deleted before the
error propagates; on exit status zero no error is raised and
post-processing runs (after the same deletion). -/
theorem C9_converter_exit (cmd : String) (code : Nat) :
    (code ≠ 0 →
      (converterPhase cmd code).2
          = some ("\"" ++ cmd ++ "\" failed with exit code " ++ toString code ++ ".") ∧
      ConvEvent.rmTree ∈ (converterPhase cmd code).1 ∧
      ConvEvent.postProcess ∉ (converterPhase cmd code).1) ∧
    (code = 0 →
      (converterPhase cmd code).2 = none ∧
      ConvEvent.rmTree ∈ (converterPhase cmd code).1 ∧
      ConvEvent.postProcess ∈ (converterPhase cmd code).1) := by
  constructor
  · intro h
    simp [converterPhase, h]
  · intro h
    subst h
    simp [converterPhase]

/-- C9 witness: converter exit status 2. -/
theorem C9_witness :
    (converterPhase "json2ts" 2).2 = some "\"json2ts\" failed with exit code 2." ∧
    ConvEvent.rmTree ∈ (converterPhase "json2ts" 2).1 ∧
    ConvEvent.postProcess ∉ (converterPhase "json2ts" 2).1 :=
  (C9_converter_exit "json2ts" 2).1 (by decide)

/-- C2 witness: a concrete marker-less file. -/
theorem C2_witness :
    clean_output_file ["no markers here\n"] = none ↔
      (findMarkers ["no markers here\n"] none 0).2 = none :=
  C2_amended_missing_marker_raises ["no markers here\n"]
